import Mathlib

/-!
Verification of `src/experiments/caching_gemma/generate_explanations_and_scores.py`.

The script is orchestration glue around the `delphi` pipeline library: it builds
an explainer pipe (`process_wrapper(DefaultExplainer(...), postprocess=explainer_postprocess)`),
a fan-out scorer pipe (`Pipe` of a `DetectionScorer` wrapper and a `FuzzingScorer`
wrapper, both with `preprocess=scorer_preprocess` and a `partial`-bound
`scorer_postprocess`), creates the output directories with
`os.makedirs(..., exist_ok=True)`, writes `experiment_config.json` into the three
output directories, and finally runs `asyncio.run(pipeline.run(50))`.

Filesystem state is embedded explicitly (paths are the character lists Python
builds with its f-strings; `open(..., "wb"/"w")` is an overwrite write;
`os.makedirs(..., exist_ok=True)` is a tolerant directory creation).  The body of
`Pipeline.run`, `Pipe` and `process_wrapper` lives in the external `delphi`
package, not in this repository, so the executor and the per-item stage schedule
are modelled from the spec (each such definition says so in its doc comment).
-/

/-- Characters of a string literal: a Python `str` is embedded as its `List Char`. -/
def strL (s : String) : List Char := s.data

/-- Decimal digit to its character, as Python `str(int)` renders digits. -/
def digitChar (d : Nat) : Char :=
  match d with
  | 0 => '0' | 1 => '1' | 2 => '2' | 3 => '3' | 4 => '4'
  | 5 => '5' | 6 => '6' | 7 => '7' | 8 => '8' | 9 => '9'
  | _ => '*'

/-- Inverse of `digitChar` on decimal digits. -/
def charDigit (c : Char) : Nat :=
  match c with
  | '0' => 0 | '1' => 1 | '2' => 2 | '3' => 3 | '4' => 4
  | '5' => 5 | '6' => 6 | '7' => 7 | '8' => 8 | '9' => 9
  | _ => 0

/-- Big-endian decimal digits of `n` (empty for `n = 0`); `fuel` bounds recursion. -/
def natReprAux : Nat → Nat → List Char
  | 0, _ => []
  | fuel + 1, n => if n = 0 then [] else natReprAux fuel (n / 10) ++ [digitChar (n % 10)]

/-- Python's `str` of a nonnegative integer: its decimal rendering, `"0"` for zero.
The feature id interpolated into the output filenames is rendered this way. -/
def natRepr (n : Nat) : List Char :=
  if n = 0 then ['0'] else natReprAux n n

/-- Parse a decimal rendering back to the number: left inverse of `natRepr`. -/
def unrepr (l : List Char) : Nat :=
  l.foldl (fun acc c => acc * 10 + charDigit c) 0

theorem charDigit_digitChar {d : Nat} (h : d < 10) : charDigit (digitChar d) = d := by
  interval_cases d <;> rfl

theorem foldl_natReprAux (fuel : Nat) :
    ∀ n acc, n ≤ fuel →
      (natReprAux fuel n).foldl (fun acc c => acc * 10 + charDigit c) acc =
        acc * 10 ^ (natReprAux fuel n).length + n := by
  induction fuel with
  | zero =>
    intro n acc hn
    have : n = 0 := Nat.le_zero.mp hn
    subst this
    simp [natReprAux]
  | succ fuel ih =>
    intro n acc hn
    by_cases h0 : n = 0
    · subst h0; simp [natReprAux]
    · have hdiv : n / 10 ≤ fuel := by
        have : n / 10 < n := Nat.div_lt_self (Nat.pos_of_ne_zero h0) (by omega)
        omega
      have hrec := ih (n / 10) acc hdiv
      simp only [natReprAux, if_neg h0, List.foldl_append, List.length_append,
        List.foldl_cons, List.foldl_nil, List.length_cons, List.length_nil]
      rw [hrec, charDigit_digitChar (Nat.mod_lt n (by omega))]
      have : 10 ^ (0 + 1) = 10 := by norm_num
      rw [pow_succ]
      have := Nat.div_add_mod n 10
      ring_nf
      omega

theorem unrepr_natRepr (n : Nat) : unrepr (natRepr n) = n := by
  by_cases h0 : n = 0
  · subst h0; rfl
  · simp only [natRepr, if_neg h0, unrepr]
    have := foldl_natReprAux n n 0 (Nat.le_refl n)
    simpa using this

theorem natRepr_injective : Function.Injective natRepr := by
  intro a b h
  have ha := unrepr_natRepr a
  have hb := unrepr_natRepr b
  rw [h] at ha
  omega

/-! ### Output paths

Embedded from the f-strings of `explainer_postprocess`, `scorer_postprocess` and
the `os.makedirs`/`open` calls of `main`.  `m` stands for `sae_model`, `e` for
`experiment_name`; both are fixed for one run. -/

/-- Directory `results/explanations/{sae_model}/{experiment_name}` (line 67). -/
def explanationsDir (m e : List Char) : List Char :=
  strL "results/explanations/" ++ m ++ strL "/" ++ e

/-- File `results/explanations/{sae_model}/{experiment_name}/{feature}.txt` (line 62). -/
def explanationPath (m e : List Char) (f : Nat) : List Char :=
  explanationsDir m e ++ strL "/" ++ natRepr f ++ strL ".txt"

/-- File `results/explanations/{sae_model}/{experiment_name}/experiment_config.json` (line 81). -/
def explConfigPath (m e : List Char) : List Char :=
  explanationsDir m e ++ strL "/" ++ strL "experiment_config.json"

/-- Directory `results/scores/{sae_model}/{experiment_name}/{score_dir}` (lines 100-101). -/
def scoresDir (m e d : List Char) : List Char :=
  strL "results/scores/" ++ m ++ strL "/" ++ e ++ strL "/" ++ d

/-- File `results/scores/{sae_model}/{experiment_name}/{score_dir}/{feature}.txt` (line 96). -/
def scorePath (m e d : List Char) (f : Nat) : List Char :=
  scoresDir m e d ++ strL "/" ++ natRepr f ++ strL ".txt"

/-- File `results/scores/{...}/{score_dir}/experiment_config.json` (lines 104, 107). -/
def scoreConfigPath (m e d : List Char) : List Char :=
  scoresDir m e d ++ strL "/" ++ strL "experiment_config.json"

theorem results_root_ne (r1 r2 : List Char) :
    strL "results/explanations/" ++ r1 ≠ strL "results/scores/" ++ r2 := by
  intro h
  have h1 : strL "results/explanations/" = strL "results/" ++ strL "explanations/" := by decide
  have h2 : strL "results/scores/" = strL "results/" ++ strL "scores/" := by decide
  rw [h1, h2, List.append_assoc, List.append_assoc] at h
  have h3 := List.append_cancel_left h
  have h4 : strL "explanations/" = 'e' :: strL "xplanations/" := by decide
  have h5 : strL "scores/" = 's' :: strL "cores/" := by decide
  rw [h4, h5, List.cons_append, List.cons_append] at h3
  exact absurd (List.head_eq_of_cons_eq h3) (by decide)

theorem explDir_app_ne_scoresDir_app (m e d r1 r2 : List Char) :
    explanationsDir m e ++ r1 ≠ scoresDir m e d ++ r2 := by
  intro h
  have h' : strL "results/explanations/" ++ (m ++ (strL "/" ++ (e ++ r1))) =
      strL "results/scores/" ++ (m ++ (strL "/" ++ (e ++ (strL "/" ++ (d ++ r2))))) := by
    simpa [explanationsDir, scoresDir, List.append_assoc] using h
  exact results_root_ne _ _ h'

theorem detection_app_ne_fuzz_app (m e r1 r2 : List Char) :
    scoresDir m e (strL "detection") ++ r1 ≠ scoresDir m e (strL "fuzz") ++ r2 := by
  intro h
  simp only [scoresDir, List.append_assoc] at h
  have h5 := List.append_cancel_left (List.append_cancel_left (List.append_cancel_left
    (List.append_cancel_left (List.append_cancel_left h))))
  have hd : strL "detection" = 'd' :: strL "etection" := by decide
  have hf : strL "fuzz" = 'f' :: strL "uzz" := by decide
  rw [hd, hf, List.cons_append, List.cons_append] at h5
  exact absurd (List.head_eq_of_cons_eq h5) (by decide)

theorem append_txt_ne_config (l : List Char) :
    l ++ strL ".txt" ≠ strL "experiment_config.json" := by
  intro h
  have hrev := congrArg List.reverse h
  rw [List.reverse_append] at hrev
  have h1 : (strL ".txt").reverse = 't' :: strL "xt." := by decide
  have h2 : (strL "experiment_config.json").reverse =
      'n' :: (strL "experiment_config.jso").reverse := by decide
  rw [h1, h2, List.cons_append] at hrev
  exact absurd (List.head_eq_of_cons_eq hrev) (by decide)

theorem explanationsDir_ne_scoresDir (m e d : List Char) :
    explanationsDir m e ≠ scoresDir m e d := by
  intro h
  apply explDir_app_ne_scoresDir_app m e d [] []
  simp [h]

theorem scoresDir_detection_ne_fuzz (m e : List Char) :
    scoresDir m e (strL "detection") ≠ scoresDir m e (strL "fuzz") := by
  intro h
  apply detection_app_ne_fuzz_app m e [] []
  simp [h]

theorem explanationPath_inj (m e : List Char) {f1 f2 : Nat}
    (h : explanationPath m e f1 = explanationPath m e f2) : f1 = f2 := by
  simp only [explanationPath, List.append_assoc] at h
  have h2 := List.append_cancel_left (List.append_cancel_left h)
  exact natRepr_injective (List.append_cancel_right h2)

theorem scorePath_inj (m e d : List Char) {f1 f2 : Nat}
    (h : scorePath m e d f1 = scorePath m e d f2) : f1 = f2 := by
  simp only [scorePath, List.append_assoc] at h
  have h2 := List.append_cancel_left (List.append_cancel_left h)
  exact natRepr_injective (List.append_cancel_right h2)

theorem explanationPath_ne_scorePath (m e d : List Char) (f1 f2 : Nat) :
    explanationPath m e f1 ≠ scorePath m e d f2 := by
  intro h
  apply explDir_app_ne_scoresDir_app m e d
    (strL "/" ++ (natRepr f1 ++ strL ".txt")) (strL "/" ++ (natRepr f2 ++ strL ".txt"))
  simpa [explanationPath, scorePath, List.append_assoc] using h

theorem scorePath_detection_ne_fuzz (m e : List Char) (f1 f2 : Nat) :
    scorePath m e (strL "detection") f1 ≠ scorePath m e (strL "fuzz") f2 := by
  intro h
  apply detection_app_ne_fuzz_app m e
    (strL "/" ++ (natRepr f1 ++ strL ".txt")) (strL "/" ++ (natRepr f2 ++ strL ".txt"))
  simpa [scorePath, List.append_assoc] using h

theorem explanationPath_ne_explConfigPath (m e : List Char) (f : Nat) :
    explanationPath m e f ≠ explConfigPath m e := by
  intro h
  simp only [explanationPath, explConfigPath, List.append_assoc] at h
  have h2 := List.append_cancel_left (List.append_cancel_left h)
  exact append_txt_ne_config (natRepr f) h2

theorem scorePath_ne_scoreConfigPath (m e d : List Char) (f : Nat) :
    scorePath m e d f ≠ scoreConfigPath m e d := by
  intro h
  simp only [scorePath, scoreConfigPath, List.append_assoc] at h
  have h2 := List.append_cancel_left (List.append_cancel_left h)
  exact append_txt_ne_config (natRepr f) h2

theorem explConfigPath_ne_scoreConfigPath (m e d : List Char) :
    explConfigPath m e ≠ scoreConfigPath m e d := by
  intro h
  apply explDir_app_ne_scoresDir_app m e d
    (strL "/" ++ strL "experiment_config.json") (strL "/" ++ strL "experiment_config.json")
  simpa [explConfigPath, scoreConfigPath, List.append_assoc] using h

theorem scoreConfigPath_detection_ne_fuzz (m e : List Char) :
    scoreConfigPath m e (strL "detection") ≠ scoreConfigPath m e (strL "fuzz") := by
  intro h
  apply detection_app_ne_fuzz_app m e
    (strL "/" ++ strL "experiment_config.json") (strL "/" ++ strL "experiment_config.json")
  simpa [scoreConfigPath, List.append_assoc] using h

theorem explanationPath_ne_scoreConfigPath (m e d : List Char) (f : Nat) :
    explanationPath m e f ≠ scoreConfigPath m e d := by
  intro h
  apply explDir_app_ne_scoresDir_app m e d
    (strL "/" ++ (natRepr f ++ strL ".txt")) (strL "/" ++ strL "experiment_config.json")
  simpa [explanationPath, scoreConfigPath, List.append_assoc] using h

theorem explConfigPath_ne_scorePath (m e d : List Char) (f : Nat) :
    explConfigPath m e ≠ scorePath m e d f := by
  intro h
  apply explDir_app_ne_scoresDir_app m e d
    (strL "/" ++ strL "experiment_config.json") (strL "/" ++ (natRepr f ++ strL ".txt"))
  simpa [explConfigPath, scorePath, List.append_assoc] using h

theorem scoreConfigPath_det_ne_scorePath_fuzz (m e : List Char) (f : Nat) :
    scoreConfigPath m e (strL "detection") ≠ scorePath m e (strL "fuzz") f := by
  intro h
  apply detection_app_ne_fuzz_app m e
    (strL "/" ++ strL "experiment_config.json") (strL "/" ++ (natRepr f ++ strL ".txt"))
  simpa [scoreConfigPath, scorePath, List.append_assoc] using h

theorem scoreConfigPath_fuzz_ne_scorePath_det (m e : List Char) (f : Nat) :
    scoreConfigPath m e (strL "fuzz") ≠ scorePath m e (strL "detection") f := by
  intro h
  apply detection_app_ne_fuzz_app m e
    (strL "/" ++ (natRepr f ++ strL ".txt")) (strL "/" ++ strL "experiment_config.json")
  simpa [scoreConfigPath, scorePath, List.append_assoc] using h.symm

/-! ### Data model

`FeatureRecord` payloads are embedded with the fields the script touches; the
untouched ML payload (examples content, prompts) is irrelevant to every claim and
carried opaquely as serialized character lists. -/

/-- The mutable per-item record (`result.record` in the script): its stable
feature id, the `explanation` field set by `scorer_preprocess`, and the
`random_examples` / `extra_examples` fields read and written there. -/
structure Record where
  feature : Nat
  explanation : List Char
  random_examples : List (List Char)
  extra_examples : List (List Char)
deriving DecidableEq

/-- Output of the explainer stage handed to `explainer_postprocess` and to
`scorer_preprocess`: the originating record plus the generated explanation. -/
structure ExplainerResult where
  record : Record
  explanation : List Char
deriving DecidableEq

/-- Output of a scorer stage handed to `scorer_postprocess`: the originating
record plus the generated score. -/
structure ScorerResult where
  record : Record
  score : List Char
deriving DecidableEq

/-- Python `open` mode: `"wb"`/`"w"` truncate and overwrite, `"ab"`/`"a"` append. -/
inductive WMode where
  | overwrite
  | append
deriving DecidableEq

/-- The three pipeline stage positions built in `main`: the `DefaultExplainer`
pipe and the two fan-out scorer siblings. -/
inductive StageName where
  | explainer
  | detection
  | fuzz
deriving DecidableEq

/-- Observable events of one run: filesystem effects (directory creation,
file writes) and per-item stage start/finish/failure markers. -/
inductive Ev where
  | mkdirE (path : List Char) (existOk : Bool)
  | writeE (path : List Char) (mode : WMode) (content : List Char)
  | startStage (st : StageName) (feature : Nat)
  | finishStage (st : StageName) (feature : Nat)
  | failStage (st : StageName) (feature : Nat)
deriving DecidableEq

/-- Filesystem state: file contents by path, and the set of created directories. -/
structure FS where
  files : List Char → Option (List Char)
  dirs : List Char → Bool

/-- Apply one event to the filesystem: `mkdirE` creates the directory (with
`exist_ok=True` this succeeds whether or not it exists), an overwrite `writeE`
replaces the file's content, an append `writeE` extends it; stage markers have
no filesystem effect. -/
def applyEv (fs : FS) : Ev → FS
  | .mkdirE p _ => { fs with dirs := fun q => q = p || fs.dirs q }
  | .writeE p .overwrite c => { fs with files := fun q => if q = p then some c else fs.files q }
  | .writeE p .append c =>
      { fs with files := fun q => if q = p then some ((fs.files p).getD [] ++ c) else fs.files q }
  | .startStage _ _ => fs
  | .finishStage _ _ => fs
  | .failStage _ _ => fs

/-- Apply a whole event trace, left to right. -/
def applyEvs (fs : FS) (l : List Ev) : FS := l.foldl applyEv fs

/-! ### The three hooks, embedded from the source

A Python function without a `return` statement returns `None`; hook return
values are therefore embedded as `Option` values (`some` = a returned object,
`none` = Python `None`).  Each hook's filesystem effect is its `open(...)`
/ `f.write(...)` block, an overwrite write (`"wb"`). -/

/-- `explainer_postprocess` (lines 60-65): writes the serialized explanation to
`results/explanations/{sae_model}/{experiment_name}/{feature}.txt` (mode `"wb"`,
an overwrite) and executes `return result`. -/
def explainer_postprocess (m e : List Char) (fs : FS) (result : ExplainerResult) :
    FS × Option ExplainerResult :=
  (applyEv fs (.writeE (explanationPath m e result.record.feature) .overwrite result.explanation),
   some result)

/-- `scorer_preprocess` (lines 87-92): sets `record.explanation` from the
explainer result and `record.extra_examples` from `record.random_examples`,
then returns the record. -/
def scorer_preprocess (result : ExplainerResult) : Record :=
  { result.record with
    explanation := result.explanation
    extra_examples := result.record.random_examples }

/-- The shared result object after `scorer_preprocess` ran once: in Python the
record is mutated in place, so the `result` both fan-out siblings hold now
carries the updated record. -/
def afterScorerPreprocess (result : ExplainerResult) : ExplainerResult :=
  { result with record := scorer_preprocess result }

/-- `scorer_postprocess` (lines 94-97): writes the serialized score to
`results/scores/{sae_model}/{experiment_name}/{score_dir}/{feature}.txt`
(mode `"wb"`, an overwrite); the function body has no `return`, so it
returns `None`.  `score_dir` is bound by `functools.partial` at pipe
construction (lines 114, 119). -/
def scorer_postprocess (score_dir m e : List Char) (fs : FS) (result : ScorerResult) :
    FS × Option ScorerResult :=
  (applyEv fs (.writeE (scorePath m e score_dir result.record.feature) .overwrite result.score),
   none)

/-- The straight-line filesystem events `main` performs before
`asyncio.run(pipeline.run(50))`, in source order: `os.makedirs` of the
explanations directory (line 67), the explanations-side config write (line 81),
`os.makedirs` of the detection and fuzz score directories (lines 100-101), and
the two score-side config writes (lines 104, 107).  `cfg` is the serialized
`experiment_cfg.to_dict()`. -/
def mainSetupEvents (m e cfg : List Char) : List Ev :=
  [ .mkdirE (explanationsDir m e) true,
    .writeE (explConfigPath m e) .overwrite cfg,
    .mkdirE (scoresDir m e (strL "detection")) true,
    .mkdirE (scoresDir m e (strL "fuzz")) true,
    .writeE (scoreConfigPath m e (strL "detection")) .overwrite cfg,
    .writeE (scoreConfigPath m e (strL "fuzz")) .overwrite cfg ]

/-! ### Per-item stage schedule

Modelled from the spec: `process_wrapper`, `Pipe` and `Pipeline` live in the
external `delphi` package, not in this repository.  Per the spec (§4.2), a
wrapped stage runs preprocess, then the core, then postprocess, sequentially;
a fan-out group's siblings run independently on the same input with no mutual
ordering, and the next pipeline position starts only after the whole group
finished; per item the positions are strictly sequential.  The write each stage
performs is the one its postprocess hook (embedded above) issues. -/

/-- Events of the explainer position for one item, in order: the stage starts,
its `explainer_postprocess` writes the explanation file, the stage (including
the postprocess) finishes. -/
def explainerEvents (m e : List Char) (res : ExplainerResult) : List Ev :=
  [ .startStage .explainer res.record.feature,
    .writeE (explanationPath m e res.record.feature) .overwrite res.explanation,
    .finishStage .explainer res.record.feature ]

/-- Events of the detection-scorer sibling for one item: start, the score write
issued by its `scorer_postprocess` (bound to `score_dir="detection"`), finish. -/
def detectionEvents (m e : List Char) (res : ExplainerResult) (score : List Char) : List Ev :=
  [ .startStage .detection res.record.feature,
    .writeE (scorePath m e (strL "detection") res.record.feature) .overwrite score,
    .finishStage .detection res.record.feature ]

/-- Events of the fuzzing-scorer sibling for one item: start, the score write
issued by its `scorer_postprocess` (bound to `score_dir="fuzz"`), finish. -/
def fuzzEvents (m e : List Char) (res : ExplainerResult) (score : List Char) : List Ev :=
  [ .startStage .fuzz res.record.feature,
    .writeE (scorePath m e (strL "fuzz") res.record.feature) .overwrite score,
    .finishStage .fuzz res.record.feature ]

/-- `Interleave l1 l2 u`: `u` is an order-preserving merge of `l1` and `l2`
(the possible cooperative schedules of two concurrent event sequences). -/
inductive Interleave {α : Type} : List α → List α → List α → Prop where
  | nil : Interleave [] [] []
  | left {l1 l2 u a} : Interleave l1 l2 u → Interleave (a :: l1) l2 (a :: u)
  | right {l1 l2 u a} : Interleave l1 l2 u → Interleave l1 (a :: l2) (a :: u)

/-- Modelled from the spec: the observable event trace of one item that
completes the whole pipeline.  The explainer position runs to completion first;
then the two fan-out scorer siblings run concurrently, so their event sequences
appear in an arbitrary interleaving.  `ds` and `fsc` are the detection and fuzz
scores the external backend produced for this item. -/
def ValidItemTrace (m e : List Char) (res : ExplainerResult) (ds fsc : List Char)
    (t : List Ev) : Prop :=
  ∃ u, Interleave (detectionEvents m e res ds) (fuzzEvents m e res fsc) u ∧
    t = explainerEvents m e res ++ u

/-- Modelled from the spec (§7): when the explainer core raises for an item, the
failure is caught and reported with the item's identity and no later stage runs
for that item. -/
def explainerFailEvents (f : Nat) : List Ev :=
  [ .startStage .explainer f, .failStage .explainer f ]

/-- One canonical complete schedule for an item (detection sibling scheduled
before fuzz); used to build whole-run traces. -/
def itemCanonEvents (m e : List Char) (it : ExplainerResult × List Char × List Char) :
    List Ev :=
  explainerEvents m e it.1 ++ detectionEvents m e it.1 it.2.1 ++ fuzzEvents m e it.1 it.2.2

/-- Modelled from the spec: the filesystem events of `pipeline.run` over a finite
item sequence, under the canonical sequential schedule. -/
def execEvents (m e : List Char) (items : List (ExplainerResult × List Char × List Char)) :
    List Ev :=
  items.flatMap (itemCanonEvents m e)

/-- The whole run's event trace: `main`'s setup events followed by the events of
`asyncio.run(pipeline.run(50))` under the canonical schedule. -/
def fullRunTrace (m e cfg : List Char)
    (items : List (ExplainerResult × List Char × List Char)) : List Ev :=
  mainSetupEvents m e cfg ++ execEvents m e items

/-! ### The bounded-concurrency executor

Modelled from the spec (§4.3): `Pipeline.run(max_concurrent)` is `delphi`
library code, absent from this repository.  The executor is modelled as a
transition system: a sliding-window admission policy admits the next pending
item whenever fewer than `N` items are in flight, and any in-flight item may
finish (successfully or with a caught, per-item failure) at any time, after
which its identity and outcome are recorded. -/

/-- Executor state: items not yet admitted (in source order), items in flight,
and finished items with their outcome (`true` = succeeded). -/
structure EState where
  pending : List Nat
  inflight : List Nat
  done : List (Nat × Bool)
deriving DecidableEq

/-- Initial executor state: everything pending, nothing admitted. -/
def initE (items : List Nat) : EState :=
  ⟨items, [], []⟩

/-- One executor transition: admit the next pending item when a concurrency slot
is free, or finish any in-flight item with some outcome. -/
inductive EStep (N : Nat) : EState → EState → Prop where
  | enter (i : Nat) (rest infl : List Nat) (d : List (Nat × Bool)) :
      infl.length < N → EStep N ⟨i :: rest, infl, d⟩ ⟨rest, i :: infl, d⟩
  | finish (ok : Bool) (pend pre post : List Nat) (i : Nat) (d : List (Nat × Bool)) :
      EStep N ⟨pend, pre ++ i :: post, d⟩ ⟨pend, pre ++ post, (i, ok) :: d⟩

/-- Reflexive-transitive closure of `EStep`: the states an execution can reach. -/
inductive EReach (N : Nat) : EState → EState → Prop where
  | refl {s} : EReach N s s
  | step {s t u} : EStep N s t → EReach N t u → EReach N s u

/-! ### Interleaving helpers -/

theorem Interleave.append {α : Type} (l1 l2 : List α) : Interleave l1 l2 (l1 ++ l2) := by
  induction l1 with
  | nil =>
    induction l2 with
    | nil => exact .nil
    | cons a l2 ih => exact .right ih
  | cons a l1 ih => exact .left ih

theorem Interleave.mem {α : Type} {l1 l2 u : List α} (h : Interleave l1 l2 u) :
    ∀ a ∈ u, a ∈ l1 ∨ a ∈ l2 := by
  induction h with
  | nil => intro a ha; cases ha
  | left _ ih =>
    intro b hb
    rcases List.mem_cons.mp hb with h1 | h2
    · exact Or.inl (h1 ▸ List.mem_cons_self _ _)
    · rcases ih b h2 with h3 | h3
      · exact Or.inl (List.mem_cons_of_mem _ h3)
      · exact Or.inr h3
  | right _ ih =>
    intro b hb
    rcases List.mem_cons.mp hb with h1 | h2
    · exact Or.inr (h1 ▸ List.mem_cons_self _ _)
    · rcases ih b h2 with h3 | h3
      · exact Or.inl h3
      · exact Or.inr (List.mem_cons_of_mem _ h3)

theorem Interleave.countP {α : Type} {l1 l2 u : List α} (p : α → Bool)
    (h : Interleave l1 l2 u) : u.countP p = l1.countP p + l2.countP p := by
  induction h with
  | nil => rfl
  | left _ ih => simp only [List.countP_cons, ih]; omega
  | right _ ih => simp only [List.countP_cons, ih]; omega

/-! ### Executor invariants -/

/-- The executor invariant: the in-flight window respects the bound and the
pending, in-flight and finished items together are exactly the source items. -/
def EInv (L : List Nat) (N : Nat) (s : EState) : Prop :=
  s.inflight.length ≤ N ∧ (s.pending ++ s.inflight ++ s.done.map Prod.fst).Perm L

theorem EInv_step {L : List Nat} {N : Nat} {s t : EState}
    (h : EStep N s t) (hs : EInv L N s) : EInv L N t := by
  cases h with
  | enter i rest infl d hlt =>
    refine ⟨by simpa using hlt, ?_⟩
    exact (List.perm_middle.append_right (d.map Prod.fst)).trans hs.2
  | finish ok pend pre post i d =>
    constructor
    · have := hs.1
      simp only [List.length_append, List.length_cons] at this ⊢
      omega
    · have hc := hs.2
      rw [List.perm_iff_count] at hc ⊢
      intro a
      have := hc a
      simp only [List.count_append, List.count_cons, List.map_cons] at this ⊢
      by_cases hai : a = i <;> simp [hai] at this ⊢ <;> omega

theorem EInv_reach {L : List Nat} {N : Nat} {s t : EState}
    (h : EReach N s t) (hs : EInv L N s) : EInv L N t := by
  induction h with
  | refl => exact hs
  | step h1 _ ih => exact ih (EInv_step h1 hs)

theorem EInv_init (L : List Nat) (N : Nat) : EInv L N (initE L) := by
  refine ⟨by simp [initE], ?_⟩
  simp [initE]

/-- From a state with an empty in-flight window, running the remaining items one
at a time (admit, then finish with outcome `!fails i`) drains the source. -/
theorem EReach.seqRun {N : Nat} (hN : 1 ≤ N) (fails : Nat → Bool) :
    ∀ (pend : List Nat) (d : List (Nat × Bool)),
      EReach N ⟨pend, [], d⟩ ⟨[], [], (pend.map (fun i => (i, !fails i))).reverse ++ d⟩ := by
  intro pend
  induction pend with
  | nil => intro d; simpa using EReach.refl
  | cons i rest ih =>
    intro d
    have h1 : EStep N ⟨i :: rest, [], d⟩ ⟨rest, [i], d⟩ :=
      EStep.enter i rest [] d (by simpa using hN)
    have h2 : EStep N ⟨rest, [i], d⟩ ⟨rest, [], (i, !fails i) :: d⟩ :=
      EStep.finish (!fails i) rest [] [] i d
    have h3 := ih ((i, !fails i) :: d)
    have hgoal : ((i :: rest).map (fun j => (j, !fails j))).reverse ++ d =
        (rest.map (fun j => (j, !fails j))).reverse ++ ((i, !fails i) :: d) := by
      simp [List.append_assoc]
    rw [hgoal]
    exact EReach.step h1 (EReach.step h2 h3)

/-- No executor transition leaves the empty initial state. -/
theorem EStep.not_from_empty {N : Nat} {t : EState} (h : EStep N (initE []) t) : False := by
  generalize hs : initE [] = s0 at h
  cases h with
  | enter i rest infl d hlt =>
    simp [initE] at hs
  | finish ok pend pre post i d =>
    simp only [initE, EState.mk.injEq] at hs
    have hlen := congrArg List.length hs.2.1
    simp only [List.length_nil, List.length_append, List.length_cons] at hlen
    omega

/-- With an empty source the executor completes immediately: the initial state
is the only reachable state. -/
theorem EReach.of_empty {N : Nat} {s : EState} (h : EReach N (initE []) s) :
    s = initE [] := by
  cases h with
  | refl => rfl
  | step h1 _ => exact (EStep.not_from_empty h1).elim

/-! ### Filesystem characterization

Last-writer-wins description of `applyEvs`, used to prove that re-running a
trace of overwrite writes and tolerant directory creations changes nothing. -/

/-- `true` unless the event is an append-mode write. -/
def Ev.overwriteOnly : Ev → Bool
  | .writeE _ .append _ => false
  | _ => true

/-- `true` unless the event is a directory creation without `exist_ok=True`. -/
def Ev.mkdirTolerant : Ev → Bool
  | .mkdirE _ ok => ok
  | _ => true

/-- Content of the last write to `p` in the trace, if any. -/
def lastWrite : List Ev → List Char → Option (List Char)
  | [], _ => none
  | e :: l, p =>
    match lastWrite l p with
    | some c => some c
    | none =>
      match e with
      | .writeE q _ c => if p = q then some c else none
      | _ => none

/-- Whether the trace creates directory `p`. -/
def mkdirIn : List Ev → List Char → Bool
  | [], _ => false
  | e :: l, p =>
    mkdirIn l p ||
      (match e with
       | .mkdirE q _ => decide (p = q)
       | _ => false)

theorem applyEvs_files (l : List Ev) (h : ∀ ev ∈ l, ev.overwriteOnly = true) :
    ∀ (fs : FS) (p : List Char),
      (applyEvs fs l).files p = (lastWrite l p).elim (fs.files p) some := by
  induction l with
  | nil => intro fs p; rfl
  | cons e l ih =>
    intro fs p
    have he := h e (List.mem_cons_self _ _)
    have hl : ∀ ev ∈ l, ev.overwriteOnly = true :=
      fun ev hev => h ev (List.mem_cons_of_mem _ hev)
    have step : applyEvs fs (e :: l) = applyEvs (applyEv fs e) l := rfl
    rw [step, ih hl]
    cases hlw : lastWrite l p with
    | some c => simp [lastWrite, hlw]
    | none =>
      simp only [lastWrite, hlw, Option.elim]
      cases e with
      | writeE q mo c =>
        cases mo with
        | append => simp [Ev.overwriteOnly] at he
        | overwrite =>
          by_cases hpq : p = q
          · subst hpq; simp [applyEv]
          · simp [applyEv, hpq]
      | mkdirE q ok => simp [applyEv]
      | startStage st f => simp [applyEv]
      | finishStage st f => simp [applyEv]
      | failStage st f => simp [applyEv]

theorem applyEvs_dirs (l : List Ev) :
    ∀ (fs : FS) (p : List Char),
      (applyEvs fs l).dirs p = (mkdirIn l p || fs.dirs p) := by
  induction l with
  | nil => intro fs p; simp [applyEvs, mkdirIn]
  | cons e l ih =>
    intro fs p
    have step : applyEvs fs (e :: l) = applyEvs (applyEv fs e) l := rfl
    rw [step, ih]
    cases e with
    | mkdirE q ok =>
      simp only [mkdirIn, applyEv]
      cases hm : mkdirIn l p <;> by_cases hpq : p = q <;> subst_eqs <;> simp_all
    | writeE q mo c => cases mo <;> simp [mkdirIn, applyEv]
    | startStage st f => simp [mkdirIn, applyEv]
    | finishStage st f => simp [mkdirIn, applyEv]
    | failStage st f => simp [mkdirIn, applyEv]

theorem FS.ext' {a b : FS} (hf : ∀ p, a.files p = b.files p)
    (hd : ∀ p, a.dirs p = b.dirs p) : a = b := by
  cases a; cases b
  simp only [FS.mk.injEq]
  exact ⟨funext hf, funext hd⟩

/-- Replaying a trace of overwrite writes and stage markers over its own result
changes nothing: the filesystem after two runs equals the filesystem after one. -/
theorem applyEvs_idem (l : List Ev) (h : ∀ ev ∈ l, ev.overwriteOnly = true) (fs : FS) :
    applyEvs (applyEvs fs l) l = applyEvs fs l := by
  apply FS.ext'
  · intro p
    rw [applyEvs_files l h, applyEvs_files l h]
    cases hlw : lastWrite l p <;> simp [hlw]
  · intro p
    simp only [applyEvs_dirs]
    cases mkdirIn l p <;> simp

/-! ### Event predicates -/

/-- Is the event a directory creation? -/
def isMkdirEv : Ev → Bool
  | .mkdirE _ _ => true
  | _ => false

/-- Is the event a file write? -/
def isWriteEv : Ev → Bool
  | .writeE _ _ _ => true
  | _ => false

/-- Is the event a file write to path `p`? -/
def isWriteAt (p : List Char) : Ev → Bool
  | .writeE q _ _ => decide (q = p)
  | _ => false

/-- Events the pipeline may emit for the item with feature id `f`: stage
markers, and overwrite writes to that item's three keyed output files.
No directory creation and no configuration write ever comes from an item. -/
def ItemEvOfF (m e : List Char) (f : Nat) (ev : Ev) : Prop :=
  match ev with
  | .mkdirE _ _ => False
  | .writeE p mo _ =>
      mo = .overwrite ∧
        (p = explanationPath m e f ∨ p = scorePath m e (strL "detection") f ∨
          p = scorePath m e (strL "fuzz") f)
  | _ => True

/-- Events the executor may emit while running items: item events of some item. -/
def SchedEvOf (m e : List Char) (ev : Ev) : Prop :=
  ∃ f, ItemEvOfF m e f ev

theorem validItemTrace_events {m e ds fsc : List Char} {res : ExplainerResult}
    {t : List Ev} (h : ValidItemTrace m e res ds fsc t) :
    ∀ ev ∈ t, ItemEvOfF m e res.record.feature ev := by
  obtain ⟨u, hu, ht⟩ := h
  subst ht
  intro ev hev
  rcases List.mem_append.mp hev with hex | hin
  · simp only [explainerEvents, List.mem_cons, List.not_mem_nil, or_false] at hex
    rcases hex with rfl | rfl | rfl <;> simp [ItemEvOfF]
  · rcases hu.mem ev hin with hdet | hfz
    · simp only [detectionEvents, List.mem_cons, List.not_mem_nil, or_false] at hdet
      rcases hdet with rfl | rfl | rfl <;> simp [ItemEvOfF]
    · simp only [fuzzEvents, List.mem_cons, List.not_mem_nil, or_false] at hfz
      rcases hfz with rfl | rfl | rfl <;> simp [ItemEvOfF]

theorem itemCanonEvents_events (m e : List Char)
    (it : ExplainerResult × List Char × List Char) :
    ∀ ev ∈ itemCanonEvents m e it, ItemEvOfF m e it.1.record.feature ev := by
  have hv : ValidItemTrace m e it.1 it.2.1 it.2.2 (itemCanonEvents m e it) := by
    refine ⟨detectionEvents m e it.1 it.2.1 ++ fuzzEvents m e it.1 it.2.2,
      Interleave.append _ _, ?_⟩
    simp [itemCanonEvents, List.append_assoc]
  exact validItemTrace_events hv

theorem execEvents_events (m e : List Char)
    (items : List (ExplainerResult × List Char × List Char)) :
    ∀ ev ∈ execEvents m e items, SchedEvOf m e ev := by
  intro ev hev
  simp only [execEvents, List.mem_flatMap] at hev
  obtain ⟨it, _, hmem⟩ := hev
  exact ⟨it.1.record.feature, itemCanonEvents_events m e it ev hmem⟩

theorem itemEv_overwriteOnly {m e : List Char} {f : Nat} {ev : Ev}
    (h : ItemEvOfF m e f ev) : ev.overwriteOnly = true := by
  cases ev with
  | writeE p mo c =>
    obtain ⟨rfl, _⟩ := h
    rfl
  | mkdirE p ok => exact h.elim
  | startStage st g => rfl
  | finishStage st g => rfl
  | failStage st g => rfl

theorem itemEv_not_mkdir {m e : List Char} {f : Nat} {ev : Ev}
    (h : ItemEvOfF m e f ev) : isMkdirEv ev = false := by
  cases ev with
  | writeE p mo c => rfl
  | mkdirE p ok => exact h.elim
  | startStage st g => rfl
  | finishStage st g => rfl
  | failStage st g => rfl

theorem itemEv_mkdirTolerant {m e : List Char} {f : Nat} {ev : Ev}
    (h : ItemEvOfF m e f ev) : ev.mkdirTolerant = true := by
  cases ev with
  | writeE p mo c => rfl
  | mkdirE p ok => exact h.elim
  | startStage st g => rfl
  | finishStage st g => rfl
  | failStage st g => rfl

theorem itemEv_not_configWrite {m e : List Char} {f : Nat} {ev : Ev}
    (h : ItemEvOfF m e f ev) :
    isWriteAt (explConfigPath m e) ev = false ∧
    isWriteAt (scoreConfigPath m e (strL "detection")) ev = false ∧
    isWriteAt (scoreConfigPath m e (strL "fuzz")) ev = false := by
  cases ev with
  | mkdirE p ok => exact h.elim
  | startStage st g => exact ⟨rfl, rfl, rfl⟩
  | finishStage st g => exact ⟨rfl, rfl, rfl⟩
  | failStage st g => exact ⟨rfl, rfl, rfl⟩
  | writeE p mo c =>
    obtain ⟨-, hp⟩ := h
    refine ⟨?_, ?_, ?_⟩ <;> simp only [isWriteAt, decide_eq_false_iff_not]
    · rcases hp with rfl | rfl | rfl
      · exact explanationPath_ne_explConfigPath m e f
      · exact fun hc => explConfigPath_ne_scorePath m e (strL "detection") f hc.symm
      · exact fun hc => explConfigPath_ne_scorePath m e (strL "fuzz") f hc.symm
    · rcases hp with rfl | rfl | rfl
      · exact explanationPath_ne_scoreConfigPath m e (strL "detection") f
      · exact scorePath_ne_scoreConfigPath m e (strL "detection") f
      · exact fun hc => scoreConfigPath_det_ne_scorePath_fuzz m e f hc.symm
    · rcases hp with rfl | rfl | rfl
      · exact explanationPath_ne_scoreConfigPath m e (strL "fuzz") f
      · exact fun hc => scoreConfigPath_fuzz_ne_scorePath_det m e f hc.symm
      · exact scorePath_ne_scoreConfigPath m e (strL "fuzz") f

/-! ### Counting writes in traces -/

theorem countP_writeAt_explainerEvents (m e : List Char) (res : ExplainerResult)
    (p : List Char) :
    (explainerEvents m e res).countP (isWriteAt p) =
      if explanationPath m e res.record.feature = p then 1 else 0 := by
  simp [explainerEvents, List.countP_cons, List.countP_nil, isWriteAt]

theorem countP_writeAt_detectionEvents (m e ds : List Char) (res : ExplainerResult)
    (p : List Char) :
    (detectionEvents m e res ds).countP (isWriteAt p) =
      if scorePath m e (strL "detection") res.record.feature = p then 1 else 0 := by
  simp [detectionEvents, List.countP_cons, List.countP_nil, isWriteAt]

theorem countP_writeAt_fuzzEvents (m e fsc : List Char) (res : ExplainerResult)
    (p : List Char) :
    (fuzzEvents m e res fsc).countP (isWriteAt p) =
      if scorePath m e (strL "fuzz") res.record.feature = p then 1 else 0 := by
  simp [fuzzEvents, List.countP_cons, List.countP_nil, isWriteAt]

theorem itemTrace_countP {m e ds fsc : List Char} {res : ExplainerResult} {t : List Ev}
    (h : ValidItemTrace m e res ds fsc t) (p : List Char) :
    t.countP (isWriteAt p) =
      (if explanationPath m e res.record.feature = p then 1 else 0) +
      ((if scorePath m e (strL "detection") res.record.feature = p then 1 else 0) +
       (if scorePath m e (strL "fuzz") res.record.feature = p then 1 else 0)) := by
  obtain ⟨u, hu, rfl⟩ := h
  rw [List.countP_append, hu.countP, countP_writeAt_explainerEvents,
    countP_writeAt_detectionEvents, countP_writeAt_fuzzEvents]

theorem mainSetupEvents_safe (m e cfg : List Char) :
    ∀ ev ∈ mainSetupEvents m e cfg, ev.overwriteOnly = true ∧ ev.mkdirTolerant = true := by
  intro ev hev
  simp only [mainSetupEvents, List.mem_cons, List.not_mem_nil, or_false] at hev
  rcases hev with rfl | rfl | rfl | rfl | rfl | rfl <;> exact ⟨rfl, rfl⟩

theorem fullRunTrace_safe (m e cfg : List Char)
    (items : List (ExplainerResult × List Char × List Char)) :
    ∀ ev ∈ fullRunTrace m e cfg items,
      ev.overwriteOnly = true ∧ ev.mkdirTolerant = true := by
  intro ev hev
  rcases List.mem_append.mp hev with h1 | h2
  · exact mainSetupEvents_safe m e cfg ev h1
  · obtain ⟨f, hf⟩ := execEvents_events m e items ev h2
    exact ⟨itemEv_overwriteOnly hf, itemEv_mkdirTolerant hf⟩

/-! ### Concrete sample inputs (used by witnesses and counterexamples) -/

/-- Sample `sae_model` (the script's default `--model 128k`). -/
def sampleM : List Char := strL "128k"

/-- Sample `experiment_name` (the script's default). -/
def sampleE : List Char := strL "default"

/-- Sample serialized experiment configuration. -/
def sampleCfg : List Char := strL "cfg"

/-- Sample feature record with feature id 3. -/
def sampleRecord : Record := ⟨3, [], [strL "rex"], []⟩

/-- Sample feature record with feature id 5. -/
def sampleRecord2 : Record := ⟨5, [], [], []⟩

/-- Sample explainer result for feature 3. -/
def sampleRes : ExplainerResult := ⟨sampleRecord, strL "an explanation"⟩

/-- Sample explainer result for feature 5. -/
def sampleRes2 : ExplainerResult := ⟨sampleRecord2, strL "other"⟩

/-- Sample scorer result for feature 3. -/
def sampleScore : ScorerResult := ⟨sampleRecord, strL "0.9"⟩

/-- The empty filesystem. -/
def emptyFS : FS := ⟨fun _ => none, fun _ => false⟩

/-- Canonical complete trace of the feature-3 sample item. -/
def sampleTrace : List Ev := itemCanonEvents sampleM sampleE (sampleRes, strL "dsc", strL "fsc")

/-- Canonical complete trace of the feature-5 sample item. -/
def sampleTrace2 : List Ev := itemCanonEvents sampleM sampleE (sampleRes2, strL "d2", strL "f2")

theorem sampleTrace_valid :
    ValidItemTrace sampleM sampleE sampleRes (strL "dsc") (strL "fsc") sampleTrace := by
  refine ⟨detectionEvents sampleM sampleE sampleRes (strL "dsc") ++
    fuzzEvents sampleM sampleE sampleRes (strL "fsc"), Interleave.append _ _, ?_⟩
  simp [sampleTrace, itemCanonEvents, List.append_assoc]

theorem sampleTrace2_valid :
    ValidItemTrace sampleM sampleE sampleRes2 (strL "d2") (strL "f2") sampleTrace2 := by
  refine ⟨detectionEvents sampleM sampleE sampleRes2 (strL "d2") ++
    fuzzEvents sampleM sampleE sampleRes2 (strL "f2"), Interleave.append _ _, ?_⟩
  simp [sampleTrace2, itemCanonEvents, List.append_assoc]

/-! ### The claims -/

/-- C3 counterexample: as stated, the claim is false — `scorer_postprocess` has
no `return` statement, so it returns `None`, not the stage output it was given.
Here the detection-side hook, run on a concrete scorer result, returns `None`. -/
theorem c3_cex_scorer_postprocess_returns_none :
    (scorer_postprocess (strL "detection") sampleM sampleE emptyFS sampleScore).2 ≠
      some sampleScore := by
  simp [scorer_postprocess]

/-- C3 (amended): `explainer_postprocess` runs for its side effect (the durable
explanation write) and returns the stage output it was given, so the value flows
forward to the scorer stage; the two `scorer_postprocess` hooks run for their
side effect (the durable score write) but return `None` — the scorer stage is
terminal, so no value needs to flow forward. -/
theorem c3_postprocess_return_values (m e d : List Char) (fs : FS)
    (res : ExplainerResult) (sres : ScorerResult) :
    (explainer_postprocess m e fs res).2 = some res ∧
    (scorer_postprocess d m e fs sres).2 = none :=
  ⟨rfl, rfl⟩

/-- C10: `scorer_preprocess` is idempotent on the shared mutable record — it
sets `record.explanation` from the result's explanation and
`record.extra_examples` from `record.random_examples`, and both fields are fixed
points after the first application.  So the detection and fuzzing siblings may
each invoke it on the same shared explainer result: the second invocation (on
the record already mutated in place by the first) returns the same record. -/
theorem c10_scorer_preprocess_idempotent (res : ExplainerResult) :
    scorer_preprocess (afterScorerPreprocess res) = scorer_preprocess res ∧
    afterScorerPreprocess (afterScorerPreprocess res) = afterScorerPreprocess res := by
  constructor <;> simp [scorer_preprocess, afterScorerPreprocess]

/-- C6: rerunning the identical run over the identical items is a safe
overwrite: every write in the run's trace opens its destination in overwrite
mode (`"wb"`/`"w"`), every `os.makedirs` passes `exist_ok=True`, and replaying
the whole trace over its own resulting filesystem leaves the filesystem
unchanged — no duplicate, no corruption. -/
theorem c6_rerun_idempotent (m e cfg : List Char)
    (items : List (ExplainerResult × List Char × List Char)) (fs : FS) :
    (∀ ev ∈ fullRunTrace m e cfg items,
        ev.overwriteOnly = true ∧ ev.mkdirTolerant = true) ∧
    applyEvs (applyEvs fs (fullRunTrace m e cfg items)) (fullRunTrace m e cfg items) =
      applyEvs fs (fullRunTrace m e cfg items) := by
  refine ⟨fullRunTrace_safe m e cfg items, ?_⟩
  exact applyEvs_idem _ (fun ev hev => (fullRunTrace_safe m e cfg items ev hev).1) fs

/-- C1: for every concurrency limit N ≥ 1 and finite item sequence, along every
execution of the (spec-modelled) executor the number of items between admission
and completion never exceeds N, and when the executor terminates (source
exhausted, nothing in flight) the finished items are exactly the source items —
each processed exactly once. -/
theorem c1_executor_bound_and_exactly_once (N : Nat) (items : List Nat) (s : EState)
    (hN : 1 ≤ N) (hr : EReach N (initE items) s) :
    s.inflight.length ≤ N ∧
      (s.pending = [] → s.inflight = [] → (s.done.map Prod.fst).Perm items) := by
  have hinv := EInv_reach hr (EInv_init items N)
  refine ⟨hinv.1, fun hp hi => ?_⟩
  have hperm := hinv.2
  rw [hp, hi] at hperm
  simpa using hperm

/-- C1 witness: a concrete run with N = 50 over the one-item source `[4]`
(admit, then finish), checked against the theorem. -/
theorem c1_witness :
    1 ≤ 50 ∧
      ((⟨[], [], [(4, true)]⟩ : EState).inflight.length ≤ 50 ∧
        ((⟨[], [], [(4, true)]⟩ : EState).pending = [] →
          (⟨[], [], [(4, true)]⟩ : EState).inflight = [] →
          (((⟨[], [], [(4, true)]⟩ : EState).done.map Prod.fst).Perm [4]))) :=
  ⟨by decide,
    c1_executor_bound_and_exactly_once 50 [4] ⟨[], [], [(4, true)]⟩ (by decide)
      (EReach.step (EStep.enter 4 [] [] [] (by decide))
        (EReach.step (EStep.finish true [] [] [] 4 []) EReach.refl))⟩

/-- C5: failure isolation.  (a) Executor level (spec-modelled): whichever items
fail, the executor still drains the whole source — there is an execution
reaching the terminal state in which every item is recorded exactly once with
its outcome, failed items marked with their identity; a failure never cancels
siblings or aborts the run.  (b) Item level: when the explainer core raises, the
item's trace reports the failure with the item's identity, performs no write,
and no scorer stage ever starts for that item. -/
theorem c5_failure_isolated_run_completes (N : Nat) (hN : 1 ≤ N) (items : List Nat)
    (fails : Nat → Bool) (f : Nat) :
    (∃ s : EState, EReach N (initE items) s ∧ s.pending = [] ∧ s.inflight = [] ∧
        s.done.Perm (items.map fun i => (i, !fails i))) ∧
    (explainerFailEvents f).countP isWriteEv = 0 ∧
    (explainerFailEvents f)[1]? = some (.failStage .explainer f) ∧
    (∀ ev ∈ explainerFailEvents f, ∀ g,
      ev ≠ .startStage .detection g ∧ ev ≠ .startStage .fuzz g) := by
  refine ⟨⟨⟨[], [], (items.map fun i => (i, !fails i)).reverse⟩, ?_, rfl, rfl, ?_⟩,
    rfl, rfl, ?_⟩
  · have h := EReach.seqRun hN fails items []
    simpa using h
  · exact List.reverse_perm _
  · intro ev hev g
    simp only [explainerFailEvents, List.mem_cons, List.not_mem_nil, or_false] at hev
    rcases hev with rfl | rfl <;> exact ⟨by simp, by simp⟩

/-- C5 witness: N = 50, source `[1, 2, 3]` with item 2 failing, feature id 2. -/
theorem c5_witness :
    (∃ s : EState, EReach 50 (initE [1, 2, 3]) s ∧ s.pending = [] ∧ s.inflight = [] ∧
        s.done.Perm ([1, 2, 3].map fun i => (i, !decide (i = 2)))) ∧
    (explainerFailEvents 2).countP isWriteEv = 0 ∧
    (explainerFailEvents 2)[1]? = some (.failStage .explainer 2) ∧
    (∀ ev ∈ explainerFailEvents 2, ∀ g,
      ev ≠ .startStage .detection g ∧ ev ≠ .startStage .fuzz g) :=
  c5_failure_isolated_run_completes 50 (by decide) [1, 2, 3] (fun i => decide (i = 2)) 2

/-- C9 counterexample: as stated, the claim is false — even over the empty item
sequence the run still performs persistence writes: `main` writes the three
`experiment_config.json` files before `pipeline.run` is awaited. -/
theorem c9_cex_empty_run_still_writes :
    ¬ ((fullRunTrace sampleM sampleE sampleCfg []).countP isWriteEv = 0) := by
  decide

/-- C9 (amended): over zero items the executor completes immediately — the
initial state is the only reachable state, so `items_processed = 0` — and the
pipeline performs no per-item persistence writes; the writes in the run's trace
are exactly `main`'s three one-time config writes, which happen regardless. -/
theorem c9_empty_source (N : Nat) (m e cfg : List Char) (s : EState)
    (hr : EReach N (initE []) s) :
    s = initE [] ∧ s.done.length = 0 ∧ execEvents m e ([] : List _) = [] ∧
    (fullRunTrace m e cfg []).countP isWriteEv =
      (mainSetupEvents m e cfg).countP isWriteEv ∧
    (mainSetupEvents m e cfg).countP isWriteEv = 3 := by
  have hs := EReach.of_empty hr
  subst hs
  refine ⟨rfl, rfl, rfl, ?_, ?_⟩
  · simp [fullRunTrace, execEvents]
  · simp [mainSetupEvents, List.countP_cons, List.countP_nil, isWriteEv]

/-- C9 witness: the empty-source executor at its (only) reachable state. -/
theorem c9_witness :
    initE [] = initE [] ∧ (initE []).done.length = 0 ∧
    execEvents sampleM sampleE ([] : List _) = [] ∧
    (fullRunTrace sampleM sampleE sampleCfg []).countP isWriteEv =
      (mainSetupEvents sampleM sampleE sampleCfg).countP isWriteEv ∧
    (mainSetupEvents sampleM sampleE sampleCfg).countP isWriteEv = 3 :=
  c9_empty_source 50 sampleM sampleE sampleCfg (initE []) EReach.refl

/-- C2: per-item stage ordering (spec-modelled schedule).  In every valid trace
of one item, the explainer position — including its postprocess — finishes
strictly before either fan-out scorer sibling (detection or fuzz) starts:
any index holding the explainer's finish marker is smaller than any index
holding a scorer start marker. -/
theorem c2_stage_order_per_item (m e ds fsc : List Char) (res : ExplainerResult)
    (t : List Ev) (h : ValidItemTrace m e res ds fsc t) (s2 : StageName)
    (hs2 : s2 = .detection ∨ s2 = .fuzz) (j1 j2 g1 g2 : Nat)
    (h1 : t[j1]? = some (.finishStage .explainer g1))
    (h2 : t[j2]? = some (.startStage s2 g2)) :
    j1 < j2 := by
  obtain ⟨u, hu, rfl⟩ := h
  have hj1 : j1 < (explainerEvents m e res).length := by
    by_contra hge
    push_neg at hge
    rw [List.getElem?_append_right hge] at h1
    have hmem := List.getElem?_mem h1
    rcases hu.mem _ hmem with hd | hf
    · simp [detectionEvents] at hd
    · simp [fuzzEvents] at hf
  have hj2 : (explainerEvents m e res).length ≤ j2 := by
    by_contra hlt
    push_neg at hlt
    rw [List.getElem?_append_left hlt] at h2
    have hmem := List.getElem?_mem h2
    simp only [explainerEvents, List.mem_cons, List.not_mem_nil, or_false] at hmem
    rcases hs2 with rfl | rfl <;> simp at hmem
  omega

/-- C2 witness: the canonical feature-3 trace; the explainer finish sits at
index 2 and the detection start at index 3. -/
theorem c2_witness :
    ValidItemTrace sampleM sampleE sampleRes (strL "dsc") (strL "fsc") sampleTrace ∧
    sampleTrace[2]? = some (.finishStage .explainer 3) ∧
    sampleTrace[3]? = some (.startStage .detection 3) ∧
    2 < 3 :=
  ⟨sampleTrace_valid, rfl, rfl,
    c2_stage_order_per_item sampleM sampleE (strL "dsc") (strL "fsc") sampleRes
      sampleTrace sampleTrace_valid .detection (Or.inl rfl) 2 3 3 3 rfl rfl⟩

theorem itemEv_writeAt_path {m e p : List Char} {f : Nat} {ev : Ev}
    (h : ItemEvOfF m e f ev) (hw : isWriteAt p ev = true) :
    p = explanationPath m e f ∨ p = scorePath m e (strL "detection") f ∨
      p = scorePath m e (strL "fuzz") f := by
  cases ev with
  | writeE q mo c =>
    simp only [isWriteAt, decide_eq_true_eq] at hw
    subst hw
    exact h.2
  | mkdirE q ok => exact h.elim
  | startStage st g => simp [isWriteAt] at hw
  | finishStage st g => simp [isWriteAt] at hw
  | failStage st g => simp [isWriteAt] at hw

theorem keyed_paths_disjoint (m e : List Char) {f1 f2 : Nat} (hne : f1 ≠ f2)
    {p : List Char}
    (hp1 : p = explanationPath m e f1 ∨ p = scorePath m e (strL "detection") f1 ∨
      p = scorePath m e (strL "fuzz") f1)
    (hp2 : p = explanationPath m e f2 ∨ p = scorePath m e (strL "detection") f2 ∨
      p = scorePath m e (strL "fuzz") f2) : False := by
  rcases hp1 with rfl | rfl | rfl <;> rcases hp2 with hp | hp | hp
  · exact hne (explanationPath_inj m e hp)
  · exact explanationPath_ne_scorePath m e (strL "detection") f1 f2 hp
  · exact explanationPath_ne_scorePath m e (strL "fuzz") f1 f2 hp
  · exact explanationPath_ne_scorePath m e (strL "detection") f2 f1 hp.symm
  · exact hne (scorePath_inj m e (strL "detection") hp)
  · exact scorePath_detection_ne_fuzz m e f1 f2 hp
  · exact explanationPath_ne_scorePath m e (strL "fuzz") f2 f1 hp.symm
  · exact scorePath_detection_ne_fuzz m e f2 f1 hp.symm
  · exact hne (scorePath_inj m e (strL "fuzz") hp)

/-- C4: for every item completing the pipeline, its trace persists exactly one
explanation file, exactly one detection score file and exactly one fuzz score
file, each keyed by the item's feature id; the three destinations are pairwise
distinct, and no write of one item's trace ever targets a path written by
another item's trace (distinct feature ids give disjoint write destinations). -/
theorem c4_one_write_per_stage_keyed_by_id (m e ds1 fs1 ds2 fs2 : List Char)
    (r1 r2 : ExplainerResult) (t1 t2 : List Ev)
    (h1 : ValidItemTrace m e r1 ds1 fs1 t1) (h2 : ValidItemTrace m e r2 ds2 fs2 t2)
    (hne : r1.record.feature ≠ r2.record.feature) :
    t1.countP (isWriteAt (explanationPath m e r1.record.feature)) = 1 ∧
    t1.countP (isWriteAt (scorePath m e (strL "detection") r1.record.feature)) = 1 ∧
    t1.countP (isWriteAt (scorePath m e (strL "fuzz") r1.record.feature)) = 1 ∧
    explanationPath m e r1.record.feature ≠
      scorePath m e (strL "detection") r1.record.feature ∧
    explanationPath m e r1.record.feature ≠
      scorePath m e (strL "fuzz") r1.record.feature ∧
    scorePath m e (strL "detection") r1.record.feature ≠
      scorePath m e (strL "fuzz") r1.record.feature ∧
    (∀ p ev1 ev2, ev1 ∈ t1 → ev2 ∈ t2 →
      isWriteAt p ev1 = true → isWriteAt p ev2 = true → False) := by
  have hexpl_det := explanationPath_ne_scorePath m e (strL "detection") r1.record.feature
    r1.record.feature
  have hexpl_fuzz := explanationPath_ne_scorePath m e (strL "fuzz") r1.record.feature
    r1.record.feature
  have hdet_fuzz := scorePath_detection_ne_fuzz m e r1.record.feature r1.record.feature
  refine ⟨?_, ?_, ?_, hexpl_det, hexpl_fuzz, hdet_fuzz, ?_⟩
  · rw [itemTrace_countP h1, if_pos rfl, if_neg (fun hc => hexpl_det hc.symm),
      if_neg (fun hc => hexpl_fuzz hc.symm)]
  · rw [itemTrace_countP h1, if_neg hexpl_det, if_pos rfl,
      if_neg (fun hc => hdet_fuzz hc.symm)]
  · rw [itemTrace_countP h1, if_neg hexpl_fuzz, if_neg hdet_fuzz, if_pos rfl]
  · intro p ev1 ev2 hm1 hm2 hw1 hw2
    have hp1 := itemEv_writeAt_path (validItemTrace_events h1 ev1 hm1) hw1
    have hp2 := itemEv_writeAt_path (validItemTrace_events h2 ev2 hm2) hw2
    exact keyed_paths_disjoint m e hne hp1 hp2

/-- C4 witness: the canonical traces of the feature-3 and feature-5 sample
items, with the per-path write counts evaluated. -/
theorem c4_witness :
    ValidItemTrace sampleM sampleE sampleRes (strL "dsc") (strL "fsc") sampleTrace ∧
    ValidItemTrace sampleM sampleE sampleRes2 (strL "d2") (strL "f2") sampleTrace2 ∧
    sampleRes.record.feature ≠ sampleRes2.record.feature ∧
    (sampleTrace.countP
        (isWriteAt (explanationPath sampleM sampleE sampleRes.record.feature)) = 1 ∧
      sampleTrace.countP
        (isWriteAt (scorePath sampleM sampleE (strL "detection")
          sampleRes.record.feature)) = 1 ∧
      sampleTrace.countP
        (isWriteAt (scorePath sampleM sampleE (strL "fuzz")
          sampleRes.record.feature)) = 1 ∧
      explanationPath sampleM sampleE sampleRes.record.feature ≠
        scorePath sampleM sampleE (strL "detection") sampleRes.record.feature ∧
      explanationPath sampleM sampleE sampleRes.record.feature ≠
        scorePath sampleM sampleE (strL "fuzz") sampleRes.record.feature ∧
      scorePath sampleM sampleE (strL "detection") sampleRes.record.feature ≠
        scorePath sampleM sampleE (strL "fuzz") sampleRes.record.feature ∧
      (∀ p ev1 ev2, ev1 ∈ sampleTrace → ev2 ∈ sampleTrace2 →
        isWriteAt p ev1 = true → isWriteAt p ev2 = true → False)) :=
  ⟨sampleTrace_valid, sampleTrace2_valid, by decide,
    c4_one_write_per_stage_keyed_by_id sampleM sampleE (strL "dsc") (strL "fsc")
      (strL "d2") (strL "f2") sampleRes sampleRes2 sampleTrace sampleTrace2
      sampleTrace_valid sampleTrace2_valid (by decide)⟩

/-- C7: in the run's trace — `main`'s setup events followed by any executor
schedule made of per-item events — the directory-creation events are exactly
one `makedirs` per destination directory (explanations, detection scores, fuzz
scores), the three directories are pairwise distinct, and every
directory-creation event sits strictly before the executor's events (its index
is below the length of the setup prefix, i.e. before `pipeline.run` is
awaited). -/
theorem c7_dirs_created_once_before_run (m e cfg : List Char) (sched : List Ev)
    (h : ∀ ev ∈ sched, SchedEvOf m e ev) :
    (mainSetupEvents m e cfg ++ sched).filter isMkdirEv =
      [ .mkdirE (explanationsDir m e) true,
        .mkdirE (scoresDir m e (strL "detection")) true,
        .mkdirE (scoresDir m e (strL "fuzz")) true ] ∧
    explanationsDir m e ≠ scoresDir m e (strL "detection") ∧
    explanationsDir m e ≠ scoresDir m e (strL "fuzz") ∧
    scoresDir m e (strL "detection") ≠ scoresDir m e (strL "fuzz") ∧
    (∀ j ev, (mainSetupEvents m e cfg ++ sched)[j]? = some ev →
      isMkdirEv ev = true → j < (mainSetupEvents m e cfg).length) := by
  have hsched : ∀ ev ∈ sched, isMkdirEv ev = false := by
    intro ev hev
    obtain ⟨f, hf⟩ := h ev hev
    exact itemEv_not_mkdir hf
  refine ⟨?_, explanationsDir_ne_scoresDir m e (strL "detection"),
    explanationsDir_ne_scoresDir m e (strL "fuzz"),
    scoresDir_detection_ne_fuzz m e, ?_⟩
  · rw [List.filter_append]
    have h2 : sched.filter isMkdirEv = [] :=
      List.filter_eq_nil_iff.mpr (by intro a ha; simp [hsched a ha])
    rw [h2]
    simp [mainSetupEvents, List.filter, isMkdirEv]
  · intro j ev hj hmk
    by_contra hge
    push_neg at hge
    rw [List.getElem?_append_right hge] at hj
    have hmem := List.getElem?_mem hj
    rw [hsched ev hmem] at hmk
    cases hmk

/-- C7 witness: the setup trace with the empty executor schedule. -/
theorem c7_witness :
    (mainSetupEvents sampleM sampleE sampleCfg ++ ([] : List Ev)).filter isMkdirEv =
      [ .mkdirE (explanationsDir sampleM sampleE) true,
        .mkdirE (scoresDir sampleM sampleE (strL "detection")) true,
        .mkdirE (scoresDir sampleM sampleE (strL "fuzz")) true ] ∧
    explanationsDir sampleM sampleE ≠ scoresDir sampleM sampleE (strL "detection") ∧
    explanationsDir sampleM sampleE ≠ scoresDir sampleM sampleE (strL "fuzz") ∧
    scoresDir sampleM sampleE (strL "detection") ≠
      scoresDir sampleM sampleE (strL "fuzz") ∧
    (∀ j ev, (mainSetupEvents sampleM sampleE sampleCfg ++ ([] : List Ev))[j]? = some ev →
      isMkdirEv ev = true → j < (mainSetupEvents sampleM sampleE sampleCfg).length) :=
  c7_dirs_created_once_before_run sampleM sampleE sampleCfg []
    (fun ev hev => absurd hev (List.not_mem_nil ev))

/-- Is the event a write whose content is the serialized run configuration? -/
def isConfigContentWrite (cfg : List Char) : Ev → Bool
  | .writeE _ _ c => decide (c = cfg)
  | _ => false

/-- C8 counterexample: as stated, the claim is false — the run's configuration
is not written exactly once: `main` writes the serialized experiment config
three times (lines 81, 104 and 107), once into each destination directory.
At a concrete configuration the count of config-content writes is 3, not 1. -/
theorem c8_cex_config_written_three_times :
    ¬ ((mainSetupEvents sampleM sampleE sampleCfg).countP
        (isConfigContentWrite sampleCfg) = 1) := by
  decide

/-- C8 (amended): the run's configuration is persisted before any item is
admitted, once per destination directory: the run trace holds exactly one write
to each of the three `experiment_config.json` paths, those paths are pairwise
distinct, and every such config write sits in the setup prefix, strictly before
the executor's events. -/
theorem c8_config_written_once_per_dir_before_run (m e cfg : List Char)
    (sched : List Ev) (h : ∀ ev ∈ sched, SchedEvOf m e ev) :
    (mainSetupEvents m e cfg ++ sched).countP (isWriteAt (explConfigPath m e)) = 1 ∧
    (mainSetupEvents m e cfg ++ sched).countP
      (isWriteAt (scoreConfigPath m e (strL "detection"))) = 1 ∧
    (mainSetupEvents m e cfg ++ sched).countP
      (isWriteAt (scoreConfigPath m e (strL "fuzz"))) = 1 ∧
    explConfigPath m e ≠ scoreConfigPath m e (strL "detection") ∧
    explConfigPath m e ≠ scoreConfigPath m e (strL "fuzz") ∧
    scoreConfigPath m e (strL "detection") ≠ scoreConfigPath m e (strL "fuzz") ∧
    (∀ j ev, (mainSetupEvents m e cfg ++ sched)[j]? = some ev →
      (isWriteAt (explConfigPath m e) ev = true ∨
        isWriteAt (scoreConfigPath m e (strL "detection")) ev = true ∨
        isWriteAt (scoreConfigPath m e (strL "fuzz")) ev = true) →
      j < (mainSetupEvents m e cfg).length) := by
  have hnc : ∀ ev ∈ sched,
      isWriteAt (explConfigPath m e) ev = false ∧
      isWriteAt (scoreConfigPath m e (strL "detection")) ev = false ∧
      isWriteAt (scoreConfigPath m e (strL "fuzz")) ev = false := by
    intro ev hev
    obtain ⟨f, hf⟩ := h ev hev
    exact itemEv_not_configWrite hf
  have hde := explConfigPath_ne_scoreConfigPath m e (strL "detection")
  have hfe := explConfigPath_ne_scoreConfigPath m e (strL "fuzz")
  have hdf := scoreConfigPath_detection_ne_fuzz m e
  have hz1 : sched.countP (isWriteAt (explConfigPath m e)) = 0 :=
    List.countP_eq_zero.mpr (by intro a ha; simp [(hnc a ha).1])
  have hz2 : sched.countP (isWriteAt (scoreConfigPath m e (strL "detection"))) = 0 :=
    List.countP_eq_zero.mpr (by intro a ha; simp [(hnc a ha).2.1])
  have hz3 : sched.countP (isWriteAt (scoreConfigPath m e (strL "fuzz"))) = 0 :=
    List.countP_eq_zero.mpr (by intro a ha; simp [(hnc a ha).2.2])
  refine ⟨?_, ?_, ?_, hde, hfe, hdf, ?_⟩
  · rw [List.countP_append, hz1]
    simp only [mainSetupEvents, List.countP_cons, List.countP_nil, isWriteAt]
    simp
    exact ⟨fun hc => hfe hc.symm, fun hc => hde hc.symm⟩
  · rw [List.countP_append, hz2]
    simp [mainSetupEvents, List.countP_cons, List.countP_nil, isWriteAt, hde]
    exact fun hc => hdf hc.symm
  · rw [List.countP_append, hz3]
    simp [mainSetupEvents, List.countP_cons, List.countP_nil, isWriteAt, hfe, hdf]
  · intro j ev hj hcw
    by_contra hge
    push_neg at hge
    rw [List.getElem?_append_right hge] at hj
    have hmem := List.getElem?_mem hj
    obtain ⟨hc1, hc2, hc3⟩ := hnc ev hmem
    rcases hcw with hcw | hcw | hcw
    · rw [hc1] at hcw; cases hcw
    · rw [hc2] at hcw; cases hcw
    · rw [hc3] at hcw; cases hcw

/-- C8 witness: the setup trace with the empty executor schedule. -/
theorem c8_witness :
    (mainSetupEvents sampleM sampleE sampleCfg ++ ([] : List Ev)).countP
      (isWriteAt (explConfigPath sampleM sampleE)) = 1 ∧
    (mainSetupEvents sampleM sampleE sampleCfg ++ ([] : List Ev)).countP
      (isWriteAt (scoreConfigPath sampleM sampleE (strL "detection"))) = 1 ∧
    (mainSetupEvents sampleM sampleE sampleCfg ++ ([] : List Ev)).countP
      (isWriteAt (scoreConfigPath sampleM sampleE (strL "fuzz"))) = 1 ∧
    explConfigPath sampleM sampleE ≠ scoreConfigPath sampleM sampleE (strL "detection") ∧
    explConfigPath sampleM sampleE ≠ scoreConfigPath sampleM sampleE (strL "fuzz") ∧
    scoreConfigPath sampleM sampleE (strL "detection") ≠
      scoreConfigPath sampleM sampleE (strL "fuzz") ∧
    (∀ j ev,
      (mainSetupEvents sampleM sampleE sampleCfg ++ ([] : List Ev))[j]? = some ev →
      (isWriteAt (explConfigPath sampleM sampleE) ev = true ∨
        isWriteAt (scoreConfigPath sampleM sampleE (strL "detection")) ev = true ∨
        isWriteAt (scoreConfigPath sampleM sampleE (strL "fuzz")) ev = true) →
      j < (mainSetupEvents sampleM sampleE sampleCfg).length) :=
  c8_config_written_once_per_dir_before_run sampleM sampleE sampleCfg []
    (fun ev hev => absurd hev (List.not_mem_nil ev))
